import Mathlib

/-!
A shallow embedding of the SquashDelta tool (`src/squashdelta.cxx`), the
program that produces a binary patch between two SquashFS 4.0 images.

The pure algorithms of the program are translated into executable Lean
functions over `List Nat` byte sequences and explicit records:

* the inode block-list walk that collects compressed data blocks,
* the fragment-table walk,
* the two raw metadata-block hashing loops,
* the sort-free part of the offset dedup-and-hash walk,
* the cross-image deduplication loop of `main`,
* the expander (`write_unpacked_file`) in both of its regions,
* the block-index serializer (`write_block_list`) and the patch layout,
* the superblock validation prefix of `get_blocks` and the error paths
  of `main`.

Machine integers are modelled as `Nat` with explicit `% 2 ^ w` where
overflow or truncation matters.  Fallible operations return
`Except sq_error`; a C `assert` is modelled as the distinguished
`sq_error.assert_failed` outcome, and a thrown `std::runtime_error` or
`IOError` by the other constructors.

The helper headers of the repository (`squashfs.hxx`, `hash.hxx`,
`compressor.hxx`, `util.hxx`) are not part of the sources at hand; the
few facts needed from them (the on-disk flag bit, the MurmurHash3
function, the superblock fields, the metadata-block reader interface)
are modelled from the specification and marked as such below.
-/

namespace SquashDelta

instance {ε α : Type} [DecidableEq ε] [DecidableEq α] : DecidableEq (Except ε α) := fun x y =>
  match x, y with
  | .ok a, .ok b =>
      if h : a = b then isTrue (by rw [h])
      else isFalse (by intro hh; cases hh; exact h rfl)
  | .error a, .error b =>
      if h : a = b then isTrue (by rw [h])
      else isFalse (by intro hh; cases hh; exact h rfl)
  | .ok _, .error _ => isFalse (by intro h; cases h)
  | .error _, .ok _ => isFalse (by intro h; cases h)

/-! ## Bytes, endianness and `htonl` / `htonll` -/

/-- Little-endian byte decomposition: the `n` low-order bytes of `x`,
least significant first.  This is how an x86 host lays out a packed
integer field written to disk. -/
def leBytes : Nat → Nat → List Nat
  | 0, _ => []
  | n + 1, x => x % 256 :: leBytes n (x / 256)

/-- Big-endian (network order) byte serialization of the `n` low-order
bytes of `x`. -/
def beBytes (n x : Nat) : List Nat := (leBytes n x).reverse

/-- Model of the C library `htonl` on a little-endian host: byte swap of
the 32-bit value (the argument is first truncated to 32 bits, as by the
implicit `uint32_t` conversion at every call site). -/
def htonl (x : Nat) : Nat :=
  x % 256 * 16777216 + x / 256 % 256 * 65536 + x / 65536 % 256 * 256 + x / 16777216 % 256

/-- Model of `htonll` from `squashdelta.cxx` (little-endian branch):
`(htonl(x & 0xFFFFFFFF) << 32) | htonl(x >> 32)`. -/
def htonll (x : Nat) : Nat :=
  htonl (x % 4294967296) * 4294967296 + htonl (x / 4294967296 % 4294967296)

/-! ## MurmurHash3 x86 32-bit

Modelled from the spec: `hash.hxx` is not among the sources; the spec
states that the content hash is MurmurHash3 x86 32-bit with seed 0 over
the exact on-disk compressed bytes. -/

/-- 32-bit left rotation. -/
def rotl32 (x r : Nat) : Nat := ((x <<< r) % 2 ^ 32) ||| (x >>> (32 - r))

/-- MurmurHash3 finalization mix. -/
def fmix32 (h0 : Nat) : Nat :=
  let h1 := h0 ^^^ (h0 >>> 16)
  let h2 := h1 * 0x85ebca6b % 2 ^ 32
  let h3 := h2 ^^^ (h2 >>> 13)
  let h4 := h3 * 0xc2b2ae35 % 2 ^ 32
  h4 ^^^ (h4 >>> 16)

/-- Little-endian value of a byte list (used for the 4-byte body chunks
and the 1–3 byte tail of MurmurHash3). -/
def leVal : List Nat → Nat
  | [] => 0
  | b :: r => b % 256 + 256 * leVal r

/-- MurmurHash3 x86 32-bit body: consume 4-byte chunks, then the tail. -/
def murmurBody (h : Nat) : List Nat → Nat
  | b0 :: b1 :: b2 :: b3 :: rest =>
      let k1 := leVal [b0, b1, b2, b3]
      let k2 := k1 * 0xcc9e2d51 % 2 ^ 32
      let k3 := rotl32 k2 15
      let k4 := k3 * 0x1b873593 % 2 ^ 32
      let h1 := h ^^^ k4
      let h2 := rotl32 h1 13
      murmurBody ((h2 * 5 + 0xe6546b64) % 2 ^ 32) rest
  | tl =>
      let k1 := leVal tl
      let k2 := k1 * 0xcc9e2d51 % 2 ^ 32
      let k3 := rotl32 k2 15
      let k4 := k3 * 0x1b873593 % 2 ^ 32
      h ^^^ k4

/-- MurmurHash3 x86 32-bit of a byte sequence with the given seed. -/
def murmurhash3 (bytes : List Nat) (seed : Nat) : Nat :=
  fmix32 ((murmurBody (seed % 2 ^ 32) bytes) ^^^ (bytes.length % 2 ^ 32))

/-! ## Data model -/

/-- In-memory representation of a compressed block
(`struct compressed_block` in `squashdelta.cxx`).  The C structure
leaves `uncompressed_length` and `hash` uninitialized at collection
time; the embedding initializes them to 0, and they are overwritten
before being read (expansion fills `uncompressed_length`, the hashing
walks fill `hash`). -/
structure compressed_block where
  offset : Nat
  length : Nat
  uncompressed_length : Nat
  hash : Nat
  deriving DecidableEq

/-- The fatal outcomes of the program: thrown `std::runtime_error`s and
`IOError`s (all reported and turned into exit status 1 by `main`), and
failed C `assert`s (which abort without a report). -/
inductive sq_error where
  | not_squashfs
  | not_v4
  | block_size_mismatch
  | compressor_mismatch
  | unsupported_compression
  | io_error
  | decompress_error
  | assert_failed (msg : String)
  deriving DecidableEq

/-- Modelled from the spec: `squashfs.hxx` is not among the sources; the
spec states that in an inode block list and in a fragment-entry size
field, the top bit of the 32-bit integer marks an uncompressed block
(`squashfs::block_size::uncompressed`). -/
def blockSizeUncompressed : Nat := 2 ^ 31

/-! ## Inode block-list walk (`get_blocks`, lines 209–229) -/

/-- The walk over one regular (or extended regular) inode's block list.
`pos` is the running offset, initially the inode's `start_block`.
For each 32-bit entry: if the uncompressed bit is set, assert that the
low bits are nonzero and advance by them; if the entry is nonzero (and
compressed), record a descriptor and advance by its length; an entry of
zero is a sparse block, neither advancing nor recording. -/
def collectInodeBlocks : Nat → List Nat → Except sq_error (List compressed_block)
  | _, [] => .ok []
  | pos, e :: rest =>
      if e &&& blockSizeUncompressed ≠ 0 then
        let len := e &&& (blockSizeUncompressed - 1)
        if len = 0 then .error (.assert_failed "len != 0")
        else collectInodeBlocks (pos + len) rest
      else if e ≠ 0 then
        match collectInodeBlocks (pos + e) rest with
        | .error err => .error err
        | .ok l => .ok (⟨pos, e, 0, 0⟩ :: l)
      else collectInodeBlocks pos rest

/-! ## Fragment-table walk (`get_blocks`, lines 269–282) -/

/-- A SquashFS fragment entry as consumed by `get_blocks`: the on-disk
offset of the fragment block and its 32-bit size field.  Modelled from
the spec (`squashfs.hxx` is not among the sources). -/
structure fragment_entry where
  start_block : Nat
  size : Nat
  deriving DecidableEq

/-- The fragment loop of `get_blocks`: each entry's size is asserted
nonzero; entries with the uncompressed bit set are skipped; the rest are
recorded as data blocks. -/
def collectFragments : List fragment_entry → Except sq_error (List compressed_block)
  | [] => .ok []
  | fe :: rest =>
      if fe.size = 0 then .error (.assert_failed "fe.size != 0")
      else if fe.size &&& blockSizeUncompressed ≠ 0 then collectFragments rest
      else
        match collectFragments rest with
        | .error err => .error err
        | .ok l => .ok (⟨fe.start_block, fe.size, 0, 0⟩ :: l)

/-! ## Raw metadata-block hashing (`get_blocks`, lines 242–262 and 293–312) -/

/-- One underlying block of a metadata stream, as yielded by
`MetadataBlockReader::read_input_block`: its absolute on-disk offset,
its on-disk bytes, and whether it is stored compressed.  Modelled from
the spec's raw block iterator interface (`util.hxx` is not among the
sources). -/
structure metadata_block where
  pos : Nat
  bytes : List Nat
  compressed : Bool
  deriving DecidableEq

/-- Shared body of the two metadata hashing loops: every compressed
block contributes a descriptor whose hash is MurmurHash3 of the on-disk
bytes with seed 0. -/
def hashMetadataBlocks (l : List metadata_block) : List compressed_block :=
  l.filterMap fun mb =>
    if mb.compressed then some ⟨mb.pos, mb.bytes.length, 0, murmurhash3 mb.bytes 0⟩ else none

/-- The inode-table hashing loop (lines 242–262): reads `count` blocks
from the metadata stream rooted at `inode_table_start`, asserting each
block's length nonzero, and records the compressed ones. -/
def hashInodeMetadata : List metadata_block → Except sq_error (List compressed_block)
  | [] => .ok []
  | mb :: rest =>
      if mb.bytes.length = 0 then .error (.assert_failed "length != 0")
      else
        match hashInodeMetadata rest with
        | .error err => .error err
        | .ok l =>
            .ok (if mb.compressed
                 then ⟨mb.pos, mb.bytes.length, 0, murmurhash3 mb.bytes 0⟩ :: l
                 else l)

/-- What the fragment-table hashing loop (lines 293–312) actually does:
although a fresh `MetadataBlockReader mfr(f, fr.start_offset, *c)` is
constructed, the loop body calls `mir.read_input_block(...)`, i.e. it
keeps reading the metadata stream rooted at `inode_table_start`, of
which the first `nInode` blocks were already consumed by the inode
hashing loop.  `inodeStream` is that stream; the loop reads its blocks
`nInode, …, nInode + nFrag - 1`. -/
def fragMetadataHashesCode (inodeStream : List metadata_block) (nInode nFrag : Nat) :
    List compressed_block :=
  hashMetadataBlocks ((inodeStream.drop nInode).take nFrag)

/-- Modelled from the spec (refinement reference): the fragment-table
hashing step is meant to iterate the fragment reader `mfr` rooted at
`fr.start_offset`, i.e. the first `nFrag` blocks of the fragment-table
metadata stream itself. -/
def fragMetadataHashesSpec (fragStream : List metadata_block) (nFrag : Nat) :
    List compressed_block :=
  hashMetadataBlocks (fragStream.take nFrag)

/-! ## Offset-sort dedup-and-hash walk (`get_blocks`, lines 322–339) -/

/-- A bounded read of `n` bytes at `pos` from the mapped image. -/
def readBytes (img : List Nat) (pos n : Nat) : List Nat := (img.drop pos).take n

/-- The recursive core of the dedup-and-hash walk over the offset-sorted
data list.  `prev` models the descriptor the iterator `j` points at.
A descriptor whose offset equals `prev`'s is erased (its length asserted
equal); otherwise its on-disk bytes are hashed and it becomes the new
`prev`. -/
def dedupHashWalk (img : List Nat) : compressed_block → List compressed_block →
    Except sq_error (List compressed_block)
  | _, [] => .ok []
  | prev, d :: ds =>
      if d.offset = prev.offset then
        if d.length = prev.length then dedupHashWalk img prev ds
        else .error (.assert_failed "(*i).length == (*j).length")
      else if img.length < d.offset + d.length then .error .io_error
      else
        let d' : compressed_block := { d with hash := murmurhash3 (readBytes img d.offset d.length) 0 }
        match dedupHashWalk img d' ds with
        | .error err => .error err
        | .ok l => .ok (d' :: l)

/-- The dedup-and-hash walk as started by `get_blocks`: the code
initializes `j = compressed_data_blocks.end()` and compares
`(*i).offset == (*j).offset` already on the first iteration, thereby
dereferencing the past-the-end iterator.  The (garbage) record read
through the end sentinel is made explicit as the `endSentinel`
parameter. -/
def dedupAndHash (img : List Nat) (endSentinel : compressed_block)
    (l : List compressed_block) : Except sq_error (List compressed_block) :=
  dedupHashWalk img endSentinel l

/-! ## Cross-image deduplication (`main`, lines 498–531) -/

/-- Key equality used by the cross-image dedup loop: equal `length` and
equal `hash`. -/
def keyEq (a b : compressed_block) : Bool :=
  a.length == b.length && a.hash == b.hash

/-- The non-strict `(length, hash)` lexicographic order that
`sort_by_len_hash` sorts by. -/
def keyLe (a b : compressed_block) : Prop :=
  a.length < b.length ∨ (a.length = b.length ∧ a.hash ≤ b.hash)

/-- The strict `(length, hash)` lexicographic order. -/
def keyLt (a b : compressed_block) : Prop :=
  a.length < b.length ∨ (a.length = b.length ∧ a.hash < b.hash)

instance : DecidableRel keyLe := fun a b => by unfold keyLe; infer_instance

instance : DecidableRel keyLt := fun a b => by unfold keyLt; infer_instance

/-- The two-cursor cross-image dedup loop of `main` over the two
`(length, hash)`-sorted lists: advance the cursor at the smaller key;
on a key match, erase the maximal run of equal-key entries from both
lists and continue after both runs. -/
def crossDedup : List compressed_block → List compressed_block →
    List compressed_block × List compressed_block
  | [], ys => ([], ys)
  | x :: xs, [] => (x :: xs, [])
  | x :: xs, y :: ys =>
      if x.length < y.length then
        let p := crossDedup xs (y :: ys)
        (x :: p.1, p.2)
      else if y.length < x.length then
        let p := crossDedup (x :: xs) ys
        (p.1, y :: p.2)
      else if x.hash < y.hash then
        let p := crossDedup xs (y :: ys)
        (x :: p.1, p.2)
      else if y.hash < x.hash then
        let p := crossDedup (x :: xs) ys
        (p.1, y :: p.2)
      else
        crossDedup (xs.dropWhile fun z => keyEq z x) (ys.dropWhile fun z => keyEq z y)
  termination_by xs ys => xs.length + ys.length
  decreasing_by
    all_goals
      have h1 : (List.dropWhile (fun z => keyEq z x) xs).length ≤ xs.length :=
        (List.dropWhile_sublist _).length_le
      have h2 : (List.dropWhile (fun z => keyEq z y) ys).length ≤ ys.length :=
        (List.dropWhile_sublist _).length_le
      simp
      try omega

/-! ## Expander, region A: passthrough with holes
(`write_unpacked_file`, lines 354–375) -/

/-- Well-placedness of an offset-sorted block list against an image of
`n` bytes, starting from input cursor `prev`: each block begins at or
after the cursor, and every span (and the final cursor) stays within the
image.  This is the "strictly ascending, non-overlapping, in-bounds"
precondition of the expander. -/
def wellPlaced : Nat → List compressed_block → Nat → Bool
  | prev, [], n => decide (prev ≤ n)
  | prev, b :: bs, n => decide (prev ≤ b.offset) && wellPlaced (b.offset + b.length) bs n

/-- Whether byte position `k` lies inside one of the listed blocks. -/
def coveredBy (bs : List compressed_block) (k : Nat) : Bool :=
  bs.any fun b => decide (b.offset ≤ k ∧ k < b.offset + b.length)

/-- The spec's description of the passthrough region read back with
holes as zeros: the original image with each listed block's `length`
bytes at its `offset` replaced by zeros. -/
def zeroedImage (img : List Nat) (bs : List compressed_block) : List Nat :=
  (List.range' 0 img.length).map fun k => if coveredBy bs k then 0 else img.getD k 0

/-- Region A of `write_unpacked_file`: for each block, copy the bytes
from the previous cursor up to `block.offset` verbatim, then skip
`block.length` input bytes while emitting a sparse hole (zeros when read
back); after the last block, copy the tail.  A block starting before the
cursor fails the `assert`; a read past the end of the image raises an
`IOError`. -/
def writeUnpackedPassthrough (img : List Nat) : Nat → List compressed_block →
    Except sq_error (List Nat)
  | prev, [] =>
      if img.length < prev then .error .io_error
      else .ok (readBytes img prev (img.length - prev))
  | prev, b :: bs =>
      if b.offset < prev then .error (.assert_failed "(*i).offset >= prev_offset")
      else if img.length < b.offset then .error .io_error
      else
        match writeUnpackedPassthrough img (b.offset + b.length) bs with
        | .error err => .error err
        | .ok t => .ok (readBytes img prev (b.offset - prev) ++ List.replicate b.length 0 ++ t)

/-! ## Expander, region B: decompressed payloads
(`write_unpacked_file`, lines 377–398) -/

/-- Region B of `write_unpacked_file`: walk the blocks again in order;
decompress each block's on-disk bytes (the decompressor `dec` is kept
abstract, `compressor.hxx` not being among the sources; per the spec it
fails on any codec error), fail if the output exceeds the image block
size, record the produced byte count into the descriptor's
`uncompressed_length`, and append the decompressed bytes to the output.
Returns the updated descriptor list and the emitted bytes. -/
def writeUnpackedPayload (img : List Nat) (dec : List Nat → Option (List Nat))
    (block_size : Nat) : List compressed_block →
    Except sq_error (List compressed_block × List Nat)
  | [] => .ok ([], [])
  | b :: bs =>
      if img.length < b.offset + b.length then .error .io_error
      else
        match dec (readBytes img b.offset b.length) with
        | none => .error .decompress_error
        | some out =>
            if block_size < out.length then .error .decompress_error
            else
              match writeUnpackedPayload img dec block_size bs with
              | .error err => .error err
              | .ok p => .ok ({ b with uncompressed_length := out.length } :: p.1, out ++ p.2)

/-! ## Block-index serialization (`write_block_list`, lines 401–424)
and the patch layout (`main`, lines 563–566 and 621–624) -/

/-- On-disk squashdelta header (`struct sqdelta_header`): four `uint32`
fields whose values are stored already byte-swapped by `htonl`. -/
structure sqdelta_header where
  magic : Nat
  flags : Nat
  compression : Nat
  block_count : Nat
  deriving DecidableEq

/-- The squashdelta magic constant. -/
def sqdeltaMagic : Nat := 0x5371ceb4

/-- Bytes of one packed `struct serialized_compressed_block` as written
by `write_block_list`: the fields hold `htonll`/`htonl`-swapped values
and the packed struct is laid out little-endian by the host. -/
def serializeBlock (b : compressed_block) : List Nat :=
  leBytes 8 (htonll b.offset) ++ leBytes 4 (htonl b.length) ++
    leBytes 4 (htonl b.uncompressed_length)

/-- Bytes of a packed `struct sqdelta_header` whose fields already hold
network-order values. -/
def serializeHeader (h : sqdelta_header) : List Nat :=
  leBytes 4 h.magic ++ leBytes 4 h.flags ++ leBytes 4 h.compression ++
    leBytes 4 h.block_count

/-- `write_block_list`: store the block count into the header, then
write all serialized records, with the header after them when `at_end`
is true (the expanded-file trailer) and before them otherwise (the
patch-file front header). -/
def writeBlockList (h : sqdelta_header) (cb : List compressed_block) (at_end : Bool) :
    List Nat :=
  let h2 := { h with block_count := htonl cb.length }
  let records := (cb.map serializeBlock).flatten
  if at_end then records ++ serializeHeader h2 else serializeHeader h2 ++ records

/-- The header value `dh` as `main` builds it: magic, zero flags and the
codec identifier, each already passed through `htonl`.  (`dh.block_count`
is left uninitialized in the C code and is overwritten by
`write_block_list` before any use; it is modelled as 0.) -/
def mainHeader (comp : Nat) : sqdelta_header :=
  { magic := htonl sqdeltaMagic, flags := htonl 0, compression := htonl comp,
    block_count := 0 }

/-- The final patch file: `write_block_list(patch_out, dh, source_blocks,
false)` followed by the bytes the external diff tool writes to the
redirected stdout. -/
def patchFileBytes (comp : Nat) (source_blocks : List compressed_block)
    (diff : List Nat) : List Nat :=
  writeBlockList (mainHeader comp) source_blocks false ++ diff

/-! ## Superblock validation (`get_blocks`, lines 131–169) and the
error paths of `main` -/

/-- The compression identifier stored in the superblock, as an enum over
the codecs `get_blocks` recognizes.  Modelled from the spec
(`squashfs.hxx` is not among the sources). -/
inductive compression_kind where
  | lzo
  | lz4
  | unknown (id : Nat)
  deriving DecidableEq

/-- The runtime type of the `Compressor` object, compared by `typeid` in
`get_blocks`; a closed tagged set per the spec's design note. -/
inductive compressor_tag where
  | lzo
  | lz4
  deriving DecidableEq

/-- The superblock fields `get_blocks` consumes.  Modelled from the spec
(`squashfs.hxx` is not among the sources): magic, version, block size
and its base-2 log, compression identifier, flags, counts, and the two
table offsets. -/
structure super_block where
  s_magic : Nat
  s_major : Nat
  s_minor : Nat
  block_size : Nat
  block_log : Nat
  compression : compression_kind
  flags : Nat
  inodes : Nat
  fragments : Nat
  inode_table_start : Nat
  fragment_table_start : Nat
  deriving DecidableEq

/-- The SquashFS magic number (`squashfs::magic`). -/
def squashfsMagic : Nat := 0x73717368

/-- The compression `switch` of `get_blocks` (lines 145–169), for a
build with both codecs enabled: create the compressor on the first
image, require the same runtime compressor type on the second, and
reject unknown identifiers. -/
def resolveCompressor (c : Option compressor_tag) :
    compression_kind → Except sq_error compressor_tag
  | .lzo =>
      match c with
      | none => .ok .lzo
      | some t => if t = .lzo then .ok t else .error .compressor_mismatch
  | .lz4 =>
      match c with
      | none => .ok .lz4
      | some t => if t = .lz4 then .ok t else .error .compressor_mismatch
  | .unknown _ => .error .unsupported_compression

/-- The superblock validation prefix of `get_blocks` in source order:
magic, then version 4.0, then the cross-image shared block size
(`block_size` is the caller's running value, 0 when not yet fixed), then
the compression switch.  Returns the updated shared block size and the
compressor tag. -/
def validateSuperblock (sb : super_block) (block_size : Nat)
    (c : Option compressor_tag) : Except sq_error (Nat × compressor_tag) :=
  if sb.s_magic ≠ squashfsMagic then .error .not_squashfs
  else if sb.s_major ≠ 4 ∨ sb.s_minor ≠ 0 then .error .not_v4
  else if block_size = 0 then
    match resolveCompressor c sb.compression with
    | .error err => .error err
    | .ok t => .ok (sb.block_size, t)
  else if block_size ≠ sb.block_size then .error .block_size_mismatch
  else
    match resolveCompressor c sb.compression with
    | .error err => .error err
    | .ok t => .ok (block_size, t)

/-- `get_blocks` at the granularity the error-path claims need:
validation first, then the whole block-collection work (inode walk,
metadata hashing, fragments, dedup) abstracted as `collect`, which runs
only when validation succeeded. -/
def getBlocksModel (sb : super_block) (c : Option compressor_tag) (block_size : Nat)
    (collect : compressor_tag → Nat → Except sq_error (List compressed_block)) :
    Except sq_error (List compressed_block × compressor_tag × Nat) :=
  match validateSuperblock sb block_size c with
  | .error err => .error err
  | .ok (bs, t) =>
      match collect t bs with
      | .error err => .error err
      | .ok blocks => .ok (blocks, t, bs)

/-- The driver's control flow around the two `get_blocks` calls: any
error while collecting either image is reported and the process exits
with status 1; otherwise the run continues (`rest` abstracts the exit
status of the remaining work). -/
def mainExitModel (sb1 sb2 : super_block)
    (collect1 collect2 : compressor_tag → Nat → Except sq_error (List compressed_block))
    (rest : Nat) : Nat :=
  match getBlocksModel sb1 none 0 collect1 with
  | .error _ => 1
  | .ok (_, t, bs) =>
      match getBlocksModel sb2 (some t) bs collect2 with
      | .error _ => 1
      | .ok _ => rest

/-! # Theorems -/

/-! ## Bit-manipulation helpers -/

theorem and_blockSizeUncompressed_ne_zero {e : Nat} (he : e < 2 ^ 32) :
    (e &&& blockSizeUncompressed ≠ 0) ↔ 2 ^ 31 ≤ e := by
  rw [blockSizeUncompressed, Nat.and_two_pow, Nat.testBit_to_div_mod]
  constructor
  · intro hne
    by_contra hlt
    push_neg at hlt
    have hz : e / 2 ^ 31 % 2 = 0 := by omega
    rw [hz] at hne
    simp at hne
  · intro h
    have ho : e / 2 ^ 31 % 2 = 1 := by omega
    rw [ho]
    simp

theorem and_low_mask (e : Nat) : e &&& (blockSizeUncompressed - 1) = e % 2 ^ 31 := by
  have h := Nat.and_pow_two_sub_one_eq_mod e 31
  simpa [blockSizeUncompressed] using h

/-!
## C1 — the fragment-table metadata hashing loop

`get_blocks` (lines 293–312) constructs `MetadataBlockReader mfr(f,
fr.start_offset, *c)` but the loop body reads `mir`, the inode-table
metadata reader, so the descriptors it appends come from the
continuation of the inode-table stream, not from the fragment-table
stream.  The code contradicts its own intent (the freshly built `mfr`
is never read), so this is a slip of the code, not of the claim.
-/

/-- C1: the claim states that the metadata blocks hashed after the
fragment walk are the fragment-table stream's own blocks starting at
`fr.start_offset`; the code instead hashes the next blocks of the
inode-table stream.  On an image whose inode-table stream continues
with a compressed block at offset 116 while the fragment-table stream
starts at offset 200, the two disagree. -/
theorem fragment_hash_reads_inode_stream :
    fragMetadataHashesCode [⟨100, [1, 2], true⟩, ⟨116, [3, 4], true⟩] 1 1
      = hashMetadataBlocks [⟨116, [3, 4], true⟩] ∧
    fragMetadataHashesSpec [⟨200, [5, 6], true⟩] 1
      = hashMetadataBlocks [⟨200, [5, 6], true⟩] ∧
    fragMetadataHashesCode [⟨100, [1, 2], true⟩, ⟨116, [3, 4], true⟩] 1 1
      ≠ fragMetadataHashesSpec [⟨200, [5, 6], true⟩] 1 := by
  refine ⟨rfl, rfl, ?_⟩
  decide

/-!
## C2 — the dedup-and-hash walk dereferences `end()` first

The walk (lines 322–339) starts with `j = compressed_data_blocks.end()`
and evaluates `(*j).offset` on its very first iteration, dereferencing
the past-the-end iterator.  Whatever the sentinel memory happens to
hold decides the fate of the first element, as the three evaluations
below show: with a sentinel offset unequal to the first block's the
walk behaves as the claim describes, with an equal sentinel offset and
length the first (unique) block is silently dropped, and with an equal
offset but different length the `assert` aborts the program.
-/

/-- C2: the dedup-and-hash walk depends on the record read through the
dereferenced `end()` iterator on its first iteration; the claim's
"never dereferences an invalid position" is violated by the code. -/
theorem dedup_walk_reads_end_sentinel :
    dedupAndHash [1, 2, 3, 4] ⟨5, 5, 0, 0⟩ [⟨0, 2, 0, 0⟩]
      = .ok [⟨0, 2, 0, murmurhash3 [1, 2] 0⟩] ∧
    dedupAndHash [1, 2, 3, 4] ⟨0, 2, 0, 0⟩ [⟨0, 2, 0, 0⟩] = .ok [] ∧
    dedupAndHash [1, 2, 3, 4] ⟨0, 9, 0, 0⟩ [⟨0, 2, 0, 0⟩]
      = .error (.assert_failed "(*i).length == (*j).length") := by
  decide

/-!
## C10 — assertion aborts -/

/-- C10: an inode block-list entry equal to exactly the uncompressed
flag bit aborts through `assert(len != 0)`, and a fragment entry with a
zero size field aborts through `assert(fe.size != 0)`; both are
assertion failures, not reported errors. -/
theorem get_blocks_assertion_aborts :
    collectInodeBlocks 0 [2 ^ 31] = .error (.assert_failed "len != 0") ∧
    collectFragments [⟨77, 0⟩] = .error (.assert_failed "fe.size != 0") := by
  decide

/-!
## C5 — the inode block-list walk -/

/-- C5: one step of the inode block-list walk.  With the top bit set
and nonzero low bits the running offset advances by the low bits and
nothing is recorded; a zero entry neither advances nor records; any
other entry records a descriptor at the running offset with the entry
as length and advances by it. -/
theorem collectInodeBlocks_step (p e : Nat) (rest : List Nat) (he : e < 2 ^ 32) :
    (2 ^ 31 ≤ e → e % 2 ^ 31 ≠ 0 →
      collectInodeBlocks p (e :: rest) = collectInodeBlocks (p + e % 2 ^ 31) rest) ∧
    (e = 0 → collectInodeBlocks p (e :: rest) = collectInodeBlocks p rest) ∧
    (e ≠ 0 → e < 2 ^ 31 →
      collectInodeBlocks p (e :: rest) =
        match collectInodeBlocks (p + e) rest with
        | .error err => .error err
        | .ok l => .ok (⟨p, e, 0, 0⟩ :: l)) := by
  refine ⟨?_, ?_, ?_⟩
  · intro h1 h2
    have hb : e &&& blockSizeUncompressed ≠ 0 :=
      (and_blockSizeUncompressed_ne_zero he).mpr h1
    simp only [collectInodeBlocks, if_pos hb, and_low_mask, if_neg h2]
  · intro h0
    subst h0
    simp [collectInodeBlocks]
  · intro h1 h2
    have hb : ¬(e &&& blockSizeUncompressed ≠ 0) := by
      rw [and_blockSizeUncompressed_ne_zero he]
      omega
    simp only [collectInodeBlocks, if_neg hb, if_pos h1]

/-- Witness for C5: a concrete uncompressed entry advances the running
offset by its low bits. -/
theorem collectInodeBlocks_step_exec :
    collectInodeBlocks 3 [2 ^ 31 + 5] = collectInodeBlocks (3 + (2 ^ 31 + 5) % 2 ^ 31) [] :=
  (collectInodeBlocks_step 3 (2 ^ 31 + 5) [] (by decide)).1 (by decide) (by decide)

/-!
## C7 — superblock validation

The code validates the magic, the version and the shared cross-image
block size, in that order, before any other work; it never compares
`block_size` with `block_log`, so a superblock whose redundant fields
disagree passes validation.
-/

/-- C7 counterexample: a superblock whose `block_size` (4096) disagrees
with its `block_log` (13, i.e. 8192) passes validation, refuting the
claim that validation fails on a violation of the block-size /
block-log agreement constraint. -/
theorem block_log_mismatch_accepted :
    validateSuperblock ⟨squashfsMagic, 4, 0, 4096, 13, .lzo, 0, 0, 0, 0, 0⟩ 0 none
      = .ok (4096, .lzo) ∧
    (⟨squashfsMagic, 4, 0, 4096, 13, .lzo, 0, 0, 0, 0, 0⟩ : super_block).block_size
      ≠ 2 ^ (⟨squashfsMagic, 4, 0, 4096, 13, .lzo, 0, 0, 0, 0, 0⟩ : super_block).block_log := by
  decide

/-- C7 (amended): `get_blocks` validates the superblock before any
collection work, failing with the not-a-SquashFS error on a bad magic
(and `main` then exits with status 1), with the version error on a
version other than 4.0, and with the block-size-mismatch error when
the image's block size differs from the already fixed shared one;
validation reads no other superblock field — in particular the result
is independent of `block_log`. -/
theorem superblock_validation_order (sb sb2 : super_block)
    (collect collect2 : compressor_tag → Nat → Except sq_error (List compressed_block))
    (c : Option compressor_tag) (bs0 rest l : Nat) :
    (sb.s_magic ≠ squashfsMagic →
      getBlocksModel sb c bs0 collect = .error .not_squashfs ∧
      mainExitModel sb sb2 collect collect2 rest = 1) ∧
    (sb.s_magic = squashfsMagic → (sb.s_major ≠ 4 ∨ sb.s_minor ≠ 0) →
      getBlocksModel sb c bs0 collect = .error .not_v4) ∧
    (sb.s_magic = squashfsMagic → sb.s_major = 4 → sb.s_minor = 0 →
      bs0 ≠ 0 → bs0 ≠ sb.block_size →
      getBlocksModel sb c bs0 collect = .error .block_size_mismatch) ∧
    validateSuperblock { sb with block_log := l } bs0 c = validateSuperblock sb bs0 c := by
  refine ⟨?_, ?_, ?_, ?_⟩
  · intro hm
    constructor
    · simp [getBlocksModel, validateSuperblock, hm]
    · simp [mainExitModel, getBlocksModel, validateSuperblock, hm]
  · intro hm hv
    simp only [getBlocksModel, validateSuperblock, hm]
    simp [hv]
  · intro hm h4 h0 hz hb
    simp [getBlocksModel, validateSuperblock, hm, h4, h0, hz, hb]
  · cases sb
    rfl

/-- Witness for C7: on a superblock with a corrupted magic, validation
reports the not-a-SquashFS error and the driver exits with status 1. -/
theorem superblock_validation_order_exec :
    getBlocksModel ⟨0, 4, 0, 4096, 12, .lzo, 0, 0, 0, 0, 0⟩ none 0 (fun _ _ => .ok [])
      = .error .not_squashfs ∧
    mainExitModel ⟨0, 4, 0, 4096, 12, .lzo, 0, 0, 0, 0, 0⟩
      ⟨0, 4, 0, 4096, 12, .lzo, 0, 0, 0, 0, 0⟩
      (fun _ _ => .ok []) (fun _ _ => .ok []) 0 = 1 :=
  (superblock_validation_order ⟨0, 4, 0, 4096, 12, .lzo, 0, 0, 0, 0, 0⟩
    ⟨0, 4, 0, 4096, 12, .lzo, 0, 0, 0, 0, 0⟩ (fun _ _ => .ok []) (fun _ _ => .ok [])
    none 0 0 0).1 (by decide)

/-!
## C6 — codec mismatch between the two images -/

theorem validateSuperblock_first_lzo (sb : super_block) (p : Nat × compressor_tag)
    (hc : sb.compression = .lzo)
    (hv : validateSuperblock sb 0 none = .ok p) :
    p = (sb.block_size, .lzo) := by
  unfold validateSuperblock at hv
  rw [hc] at hv
  split at hv
  · cases hv
  · split at hv
    · cases hv
    · simp only [resolveCompressor, if_pos rfl] at hv
      cases hv
      rfl

/-- C6: when the first image resolved to the LZO compressor and the
second image's superblock is a valid 4.0 superblock with the same block
size but the LZ4 compression identifier, `get_blocks` on the second
image fails with the compressor-mismatch error during validation —
before any block of that image is collected, whatever the collection
phase would have produced — and `main` exits with status 1. -/
theorem codec_mismatch_second_image (sb1 sb2 : super_block)
    (collect1 collect2 : compressor_tag → Nat → Except sq_error (List compressed_block))
    (rest : Nat) (blocks : List compressed_block) (t : compressor_tag) (bs : Nat)
    (h1 : sb1.compression = .lzo) (h2 : sb2.compression = .lz4)
    (hm : sb2.s_magic = squashfsMagic) (hj : sb2.s_major = 4) (hn : sb2.s_minor = 0)
    (hbs : sb2.block_size = sb1.block_size)
    (hok : getBlocksModel sb1 none 0 collect1 = .ok (blocks, t, bs)) :
    getBlocksModel sb2 (some t) bs collect2 = .error .compressor_mismatch ∧
    mainExitModel sb1 sb2 collect1 collect2 rest = 1 := by
  have hvp : t = .lzo ∧ bs = sb1.block_size := by
    unfold getBlocksModel at hok
    cases hval : validateSuperblock sb1 0 none with
    | error e => simp [hval] at hok
    | ok p =>
        have hp := validateSuperblock_first_lzo sb1 p h1 hval
        subst hp
        rw [hval] at hok
        cases hcol : collect1 compressor_tag.lzo sb1.block_size with
        | error e => simp [hcol] at hok
        | ok bl =>
            simp [hcol] at hok
            exact ⟨hok.2.1.symm, hok.2.2.symm⟩
  obtain ⟨ht, hbseq⟩ := hvp
  subst ht
  subst hbseq
  have hval2 : validateSuperblock sb2 sb1.block_size (some compressor_tag.lzo)
      = .error .compressor_mismatch := by
    unfold validateSuperblock
    rw [hm, hj, hn, h2]
    by_cases hz : sb1.block_size = 0
    · simp [hz, resolveCompressor]
    · simp [hz, hbs, resolveCompressor]
  constructor
  · simp [getBlocksModel, hval2]
  · simp only [mainExitModel, hok]
    simp [getBlocksModel, hval2]

/-- Witness for C6: a concrete LZO source image followed by a concrete
LZ4 target image with matching block sizes. -/
theorem codec_mismatch_second_image_exec :
    getBlocksModel ⟨squashfsMagic, 4, 0, 4096, 12, .lz4, 0, 0, 0, 0, 0⟩
        (some .lzo) 4096 (fun _ _ => .ok []) = .error .compressor_mismatch ∧
    mainExitModel ⟨squashfsMagic, 4, 0, 4096, 12, .lzo, 0, 0, 0, 0, 0⟩
        ⟨squashfsMagic, 4, 0, 4096, 12, .lz4, 0, 0, 0, 0, 0⟩
        (fun _ _ => .ok []) (fun _ _ => .ok []) 7 = 1 :=
  codec_mismatch_second_image
    ⟨squashfsMagic, 4, 0, 4096, 12, .lzo, 0, 0, 0, 0, 0⟩
    ⟨squashfsMagic, 4, 0, 4096, 12, .lz4, 0, 0, 0, 0, 0⟩
    (fun _ _ => .ok []) (fun _ _ => .ok []) 7 [] .lzo 4096
    rfl rfl rfl rfl rfl rfl (by decide)

/-!
## C9 — expansion mutates only `uncompressed_length` -/

/-- C9: when region B of `write_unpacked_file` succeeds, the descriptor
list keeps its size and order, every descriptor keeps its `offset`,
`length` and `hash`, and the only mutation is that each descriptor's
`uncompressed_length` is set to the byte count produced by
decompressing its on-disk bytes. -/
theorem writeUnpackedPayload_frame (img : List Nat) (dec : List Nat → Option (List Nat))
    (bsz : Nat) (cb cb' : List compressed_block) (out : List Nat)
    (h : writeUnpackedPayload img dec bsz cb = .ok (cb', out)) :
    cb'.length = cb.length ∧
    List.Forall₂ (fun b b' => ∃ v, dec (readBytes img b.offset b.length) = some v ∧
      b' = { b with uncompressed_length := v.length }) cb cb' := by
  induction cb generalizing cb' out with
  | nil =>
      simp only [writeUnpackedPayload] at h
      cases h
      exact ⟨rfl, List.Forall₂.nil⟩
  | cons b bs ih =>
      simp only [writeUnpackedPayload] at h
      by_cases hg : img.length < b.offset + b.length
      · rw [if_pos hg] at h
        cases h
      · rw [if_neg hg] at h
        cases hd : dec (readBytes img b.offset b.length) with
        | none => simp [hd] at h
        | some v =>
            simp only [hd] at h
            by_cases hbsz : bsz < v.length
            · rw [if_pos hbsz] at h
              cases h
            · rw [if_neg hbsz] at h
              cases hr : writeUnpackedPayload img dec bsz bs with
              | error e => simp [hr] at h
              | ok p =>
                  obtain ⟨p1, p2⟩ := p
                  simp only [hr, Except.ok.injEq, Prod.mk.injEq] at h
                  obtain ⟨hc, ho⟩ := h
                  subst hc
                  subst ho
                  obtain ⟨hl, hf⟩ := ih p1 p2 hr
                  exact ⟨by simp [hl], List.Forall₂.cons ⟨v, hd, rfl⟩ hf⟩

/-- Witness for C9: a concrete two-byte block decompressed by a
doubling decompressor gets `uncompressed_length` 4 and nothing else
changes. -/
theorem writeUnpackedPayload_frame_exec :
    ([⟨0, 2, 4, 7⟩] : List compressed_block).length
      = ([⟨0, 2, 0, 7⟩] : List compressed_block).length ∧
    List.Forall₂ (fun (b b' : compressed_block) => ∃ v,
        (fun l => some (l ++ l)) (readBytes [1, 2, 3, 4] b.offset b.length) = some v ∧
        b' = { b with uncompressed_length := v.length })
      [⟨0, 2, 0, 7⟩] [⟨0, 2, 4, 7⟩] :=
  writeUnpackedPayload_frame [1, 2, 3, 4] (fun l => some (l ++ l)) 8
    [⟨0, 2, 0, 7⟩] [⟨0, 2, 4, 7⟩] [1, 2, 1, 2] (by decide)

/-!
## C8 — block-index serialization and patch layout -/

theorem length_leBytes (n : Nat) : ∀ x, (leBytes n x).length = n := by
  induction n with
  | zero => intro x; rfl
  | succ m ih => intro x; simp [leBytes, ih]

theorem htonl_lt (x : Nat) : htonl x < 2 ^ 32 := by
  unfold htonl
  omega

theorem leBytes_four_expand (x : Nat) :
    leBytes 4 x = [x % 256, x / 256 % 256, x / 65536 % 256, x / 16777216 % 256] := by
  simp [leBytes, Nat.div_div_eq_div_mul]

theorem leBytes_eight_expand (x : Nat) :
    leBytes 8 x = [x % 256, x / 256 % 256, x / 65536 % 256, x / 16777216 % 256,
      x / 4294967296 % 256, x / 1099511627776 % 256, x / 281474976710656 % 256,
      x / 72057594037927936 % 256] := by
  simp [leBytes, Nat.div_div_eq_div_mul]

theorem leBytes_htonl (x : Nat) (_hx : x < 2 ^ 32) :
    leBytes 4 (htonl x) = (leBytes 4 x).reverse := by
  have h1 : (leBytes 4 x).reverse
      = [x / 16777216 % 256, x / 65536 % 256, x / 256 % 256, x % 256] := by
    rw [leBytes_four_expand]
    rfl
  rw [h1, leBytes_four_expand]
  unfold htonl
  generalize ha : x % 256 = a
  generalize hb : x / 256 % 256 = b
  generalize hc : x / 65536 % 256 = c
  generalize hd : x / 16777216 % 256 = d
  have ha2 : a < 256 := by omega
  have hb2 : b < 256 := by omega
  have hc2 : c < 256 := by omega
  have hd2 : d < 256 := by omega
  simp only [List.cons.injEq, and_true]
  refine ⟨?_, ?_, ?_, ?_⟩ <;> omega

theorem leBytes_split8 (a b : Nat) (hb : b < 2 ^ 32) :
    leBytes 8 (b + a * 4294967296) = leBytes 4 b ++ leBytes 4 a := by
  rw [leBytes_eight_expand, leBytes_four_expand, leBytes_four_expand]
  simp only [List.cons_append, List.nil_append, List.cons.injEq, and_true]
  refine ⟨?_, ?_, ?_, ?_, ?_, ?_, ?_, ?_⟩ <;> omega

theorem leBytes_htonll (x : Nat) (hx : x < 2 ^ 64) :
    leBytes 8 (htonll x) = (leBytes 8 x).reverse := by
  have hlo : x % 4294967296 < 2 ^ 32 := by omega
  have hhi : x / 4294967296 % 4294967296 = x / 4294967296 := by omega
  have hhilt : x / 4294967296 < 2 ^ 32 := by omega
  have hsplit : leBytes 8 x = leBytes 4 (x % 4294967296) ++ leBytes 4 (x / 4294967296) := by
    have hx2 : x = x % 4294967296 + x / 4294967296 * 4294967296 := by omega
    calc leBytes 8 x
        = leBytes 8 (x % 4294967296 + x / 4294967296 * 4294967296) := by rw [← hx2]
      _ = leBytes 4 (x % 4294967296) ++ leBytes 4 (x / 4294967296) :=
          leBytes_split8 _ _ hlo
  calc leBytes 8 (htonll x)
      = leBytes 8 (htonl (x / 4294967296) + htonl (x % 4294967296) * 4294967296) := by
        unfold htonll
        rw [hhi, Nat.add_comm]
    _ = leBytes 4 (htonl (x / 4294967296)) ++ leBytes 4 (htonl (x % 4294967296)) :=
        leBytes_split8 _ _ (htonl_lt _)
    _ = (leBytes 4 (x / 4294967296)).reverse ++ (leBytes 4 (x % 4294967296)).reverse := by
        rw [leBytes_htonl _ hhilt, leBytes_htonl _ hlo]
    _ = (leBytes 4 (x % 4294967296) ++ leBytes 4 (x / 4294967296)).reverse :=
        (List.reverse_append _ _).symm
    _ = (leBytes 8 x).reverse := by rw [← hsplit]

theorem serializeBlock_eq (b : compressed_block) (h1 : b.offset < 2 ^ 64)
    (h2 : b.length < 2 ^ 32) (h3 : b.uncompressed_length < 2 ^ 32) :
    serializeBlock b
      = beBytes 8 b.offset ++ beBytes 4 b.length ++ beBytes 4 b.uncompressed_length := by
  unfold serializeBlock beBytes
  rw [leBytes_htonll _ h1, leBytes_htonl _ h2, leBytes_htonl _ h3]

theorem serializeHeader_main (comp n : Nat) (hc : comp < 2 ^ 32) (hn : n < 2 ^ 32) :
    serializeHeader { mainHeader comp with block_count := htonl n }
      = beBytes 4 sqdeltaMagic ++ beBytes 4 0 ++ beBytes 4 comp ++ beBytes 4 n := by
  have hrec : ({ mainHeader comp with block_count := htonl n } : sqdelta_header)
      = ⟨htonl sqdeltaMagic, htonl 0, htonl comp, htonl n⟩ := rfl
  rw [hrec]
  unfold serializeHeader beBytes
  rw [leBytes_htonl sqdeltaMagic (by decide), leBytes_htonl 0 (by decide),
    leBytes_htonl comp hc, leBytes_htonl n hn]

/-- C8: `write_block_list` emits each descriptor as a packed 16-byte
record — offset as a big-endian `u64`, length and uncompressed length
as big-endian `u32`s — and a 16-byte header with big-endian magic
`0x5371CEB4`, zero flags, the codec identifier, and the number of
descriptors in the list; the expanded intermediate file gets the header
after the records (trailer style), while the final patch file carries
the header before the records, once, ahead of the diff payload. -/
theorem writeBlockList_layout (comp : Nat) (cb : List compressed_block) (diff : List Nat)
    (hb : ∀ b ∈ cb, b.offset < 2 ^ 64 ∧ b.length < 2 ^ 32 ∧ b.uncompressed_length < 2 ^ 32)
    (hc : comp < 2 ^ 32) (hn : cb.length < 2 ^ 32) :
    writeBlockList (mainHeader comp) cb true
      = (cb.map fun b =>
          beBytes 8 b.offset ++ beBytes 4 b.length ++ beBytes 4 b.uncompressed_length).flatten
        ++ (beBytes 4 sqdeltaMagic ++ beBytes 4 0 ++ beBytes 4 comp ++ beBytes 4 cb.length) ∧
    patchFileBytes comp cb diff
      = (beBytes 4 sqdeltaMagic ++ beBytes 4 0 ++ beBytes 4 comp ++ beBytes 4 cb.length)
        ++ ((cb.map fun b =>
            beBytes 8 b.offset ++ beBytes 4 b.length ++ beBytes 4 b.uncompressed_length).flatten
          ++ diff) ∧
    (∀ b ∈ cb, (serializeBlock b).length = 16) ∧
    (serializeHeader { mainHeader comp with block_count := htonl cb.length }).length = 16 := by
  have hmap : cb.map serializeBlock = cb.map fun b =>
      beBytes 8 b.offset ++ beBytes 4 b.length ++ beBytes 4 b.uncompressed_length :=
    List.map_congr_left fun b hm =>
      serializeBlock_eq b (hb b hm).1 (hb b hm).2.1 (hb b hm).2.2
  have hhdr := serializeHeader_main comp cb.length hc hn
  refine ⟨?_, ?_, ?_, ?_⟩
  · simp only [writeBlockList, if_true]
    rw [hmap, hhdr]
  · simp only [patchFileBytes, writeBlockList, Bool.false_eq_true, if_false]
    rw [hmap, hhdr, List.append_assoc]
  · intro b hm
    unfold serializeBlock
    simp [length_leBytes]
  · rw [hhdr]
    simp [beBytes, length_leBytes]

/-- Witness for C8: the full byte layout theorem applied to a concrete
one-descriptor list. -/
theorem writeBlockList_layout_exec :
    writeBlockList (mainHeader 1) [⟨2, 3, 4, 5⟩] true
      = (([⟨2, 3, 4, 5⟩] : List compressed_block).map fun b =>
          beBytes 8 b.offset ++ beBytes 4 b.length ++ beBytes 4 b.uncompressed_length).flatten
        ++ (beBytes 4 sqdeltaMagic ++ beBytes 4 0 ++ beBytes 4 1 ++ beBytes 4 1) :=
  (writeBlockList_layout 1 [⟨2, 3, 4, 5⟩] [9] (by decide) (by decide) (by decide)).1

/-!
## C4 — the sparse passthrough region -/

theorem wellPlaced_le : ∀ (bs : List compressed_block) (prev n : Nat),
    wellPlaced prev bs n = true → prev ≤ n := by
  intro bs
  induction bs with
  | nil =>
      intro prev n h
      simpa [wellPlaced] using h
  | cons b rest ih =>
      intro prev n h
      simp only [wellPlaced, Bool.and_eq_true, decide_eq_true_eq] at h
      have hr := ih (b.offset + b.length) n h.2
      omega

theorem wellPlaced_mem : ∀ (bs : List compressed_block) (prev n : Nat),
    wellPlaced prev bs n = true → ∀ b' ∈ bs, prev ≤ b'.offset ∧ b'.offset + b'.length ≤ n := by
  intro bs
  induction bs with
  | nil =>
      intro prev n h b' hb'
      simp at hb'
  | cons b rest ih =>
      intro prev n h b' hb'
      simp only [wellPlaced, Bool.and_eq_true, decide_eq_true_eq] at h
      rcases List.mem_cons.mp hb' with hEq | hMem
      · subst hEq
        exact ⟨h.1, wellPlaced_le rest _ _ h.2⟩
      · have hr := ih (b.offset + b.length) n h.2 b' hMem
        omega

theorem range_map_getD (img : List Nat) : ∀ (n p : Nat), p + n ≤ img.length →
    (List.range' p n).map (fun k => img.getD k 0) = readBytes img p n := by
  intro n
  induction n with
  | zero =>
      intro p hp
      simp [readBytes]
  | succ m ih =>
      intro p hp
      have hplt : p < img.length := by omega
      rw [List.range'_succ, List.map_cons, ih (p + 1) (by omega)]
      unfold readBytes
      rw [List.drop_eq_getElem_cons hplt, List.take_succ_cons]
      congr 1
      exact List.getD_eq_getElem img 0 hplt

theorem range_map_zero (f : Nat → Nat) : ∀ (n s : Nat),
    (∀ k, s ≤ k → k < s + n → f k = 0) →
    (List.range' s n).map f = List.replicate n 0 := by
  intro n
  induction n with
  | zero =>
      intro s h
      simp
  | succ m ih =>
      intro s h
      rw [List.range'_succ, List.map_cons, ih (s + 1) (fun k h1 h2 => h k (by omega) (by omega)),
        h s (Nat.le_refl s) (by omega), List.replicate_succ]

theorem passthrough_zeroed (img : List Nat) :
    ∀ (bs : List compressed_block) (prev : Nat),
      wellPlaced prev bs img.length = true →
      writeUnpackedPassthrough img prev bs
        = .ok ((List.range' prev (img.length - prev)).map
            fun k => if coveredBy bs k then 0 else img.getD k 0) := by
  intro bs
  induction bs with
  | nil =>
      intro prev h
      have hp : prev ≤ img.length := by simpa [wellPlaced] using h
      unfold writeUnpackedPassthrough
      rw [if_neg (by omega)]
      congr 1
      rw [← range_map_getD img (img.length - prev) prev (by omega)]
      apply List.map_congr_left
      intro k hk
      simp [coveredBy]
  | cons b rest ih =>
      intro prev h
      simp only [wellPlaced, Bool.and_eq_true, decide_eq_true_eq] at h
      obtain ⟨hpb, hrest⟩ := h
      have hend : b.offset + b.length ≤ img.length := wellPlaced_le rest _ _ hrest
      have hoffs : ∀ b' ∈ rest, b.offset + b.length ≤ b'.offset :=
        fun b' hb' => (wellPlaced_mem rest _ _ hrest b' hb').1
      unfold writeUnpackedPassthrough
      rw [if_neg (by omega), if_neg (by omega)]
      simp only [ih (b.offset + b.length) hrest]
      congr 1
      have hsum : img.length - prev = (img.length - b.offset) + (b.offset - prev) := by omega
      rw [hsum, ← List.range'_append_1 prev (b.offset - prev) (img.length - b.offset)]
      have hpa : prev + (b.offset - prev) = b.offset := by omega
      rw [hpa]
      have hsum2 : img.length - b.offset
          = (img.length - (b.offset + b.length)) + b.length := by omega
      rw [hsum2, ← List.range'_append_1 b.offset b.length (img.length - (b.offset + b.length))]
      rw [List.map_append, List.map_append]
      have e1 : (List.range' prev (b.offset - prev)).map
          (fun k => if coveredBy (b :: rest) k then 0 else img.getD k 0)
          = readBytes img prev (b.offset - prev) := by
        rw [← range_map_getD img (b.offset - prev) prev (by omega)]
        apply List.map_congr_left
        intro k hk
        rw [List.mem_range'_1] at hk
        have hcov : coveredBy (b :: rest) k = false := by
          rw [coveredBy, List.any_eq_false]
          intro b' hb'
          rcases List.mem_cons.mp hb' with hEq | hMem
          · subst hEq
            simp
            omega
          · have hr := hoffs b' hMem
            simp
            omega
        simp [hcov]
      have e2 : (List.range' b.offset b.length).map
          (fun k => if coveredBy (b :: rest) k then 0 else img.getD k 0)
          = List.replicate b.length 0 := by
        apply range_map_zero
        intro k h1 h2
        have hc : coveredBy (b :: rest) k = true := by
          simp only [coveredBy, List.any_cons, Bool.or_eq_true, decide_eq_true_eq]
          left
          exact ⟨h1, h2⟩
        simp [hc]
      have e3 : (List.range' (b.offset + b.length) (img.length - (b.offset + b.length))).map
          (fun k => if coveredBy (b :: rest) k then 0 else img.getD k 0)
          = (List.range' (b.offset + b.length) (img.length - (b.offset + b.length))).map
            (fun k => if coveredBy rest k then 0 else img.getD k 0) := by
        apply List.map_congr_left
        intro k hk
        rw [List.mem_range'_1] at hk
        have hbk : decide (b.offset ≤ k ∧ k < b.offset + b.length) = false := by
          simp
          omega
        rw [coveredBy, List.any_cons, hbk]
        simp [coveredBy]
      rw [e1, e2, e3, List.append_assoc]

/-- C4: for a well-placed (offset-ascending, non-overlapping, in-bounds)
block list, the passthrough region written by `write_unpacked_file`,
read back with holes as zeros, equals the original image with each
listed block's `length` bytes at its `offset` replaced by zeros; its
apparent size equals the input image's length, and every byte after the
last block (not inside any block) is copied verbatim. -/
theorem writeUnpackedPassthrough_spec (img : List Nat) (bs : List compressed_block)
    (h : wellPlaced 0 bs img.length = true) :
    writeUnpackedPassthrough img 0 bs = .ok (zeroedImage img bs) ∧
    (zeroedImage img bs).length = img.length ∧
    ∀ k, k < img.length → (∀ b ∈ bs, b.offset + b.length ≤ k) →
      (zeroedImage img bs).getD k 0 = img.getD k 0 := by
  refine ⟨?_, ?_, ?_⟩
  · have h0 := passthrough_zeroed img bs 0 h
    rw [Nat.sub_zero] at h0
    unfold zeroedImage
    exact h0
  · simp [zeroedImage]
  · intro k hk hall
    unfold zeroedImage
    have hlen : k < ((List.range' 0 img.length).map
        fun k => if coveredBy bs k then 0 else img.getD k 0).length := by
      simpa using hk
    rw [List.getD_eq_getElem _ _ hlen]
    simp only [List.getElem_map, List.getElem_range'_1, Nat.zero_add]
    have hcov : coveredBy bs k = false := by
      rw [coveredBy, List.any_eq_false]
      intro b' hb'
      have hr := hall b' hb'
      simp
      omega
    simp [hcov]

/-- Witness for C4: a concrete six-byte image with two blocks. -/
theorem writeUnpackedPassthrough_spec_exec :
    writeUnpackedPassthrough [1, 2, 3, 4, 5, 6] 0 [⟨1, 2, 0, 0⟩, ⟨4, 1, 0, 0⟩]
      = .ok (zeroedImage [1, 2, 3, 4, 5, 6] [⟨1, 2, 0, 0⟩, ⟨4, 1, 0, 0⟩]) :=
  (writeUnpackedPassthrough_spec [1, 2, 3, 4, 5, 6] [⟨1, 2, 0, 0⟩, ⟨4, 1, 0, 0⟩]
    (by decide)).1

/-!
## C3 — cross-image deduplication -/

theorem keyEq_true_iff (a b : compressed_block) :
    keyEq a b = true ↔ a.length = b.length ∧ a.hash = b.hash := by
  simp [keyEq]

theorem keyEq_false_iff (a b : compressed_block) :
    keyEq a b = false ↔ ¬(a.length = b.length ∧ a.hash = b.hash) := by
  rw [← Bool.not_eq_true, keyEq_true_iff]

theorem keyEq_refl (a : compressed_block) : keyEq a a = true := by
  simp [keyEq]

theorem keyLt_keyLe_trans {a b c : compressed_block} (h1 : keyLt a b) (h2 : keyLe b c) :
    keyLt a c := by
  unfold keyLt keyLe at *
  omega

/-- In a sorted list whose elements are all key-at-least `x`, everything
surviving `dropWhile (keyEq · x)` is key-strictly-greater than `x`. -/
theorem dropWhile_run_keyLt (x : compressed_block) :
    ∀ (xs : List compressed_block), (∀ z ∈ xs, keyLe x z) → List.Pairwise keyLe xs →
      ∀ z ∈ xs.dropWhile fun z => keyEq z x, keyLt x z := by
  intro xs
  induction xs with
  | nil =>
      intro _ _ z hz
      simp [List.dropWhile] at hz
  | cons w t ih =>
      intro hb hp z hz
      rw [List.pairwise_cons] at hp
      by_cases hw : keyEq w x = true
      · rw [@List.dropWhile_cons_of_pos _ (fun z => keyEq z x) w t hw] at hz
        exact ih (fun u hu => hb u (List.mem_cons_of_mem _ hu)) hp.2 z hz
      · rw [@List.dropWhile_cons_of_neg _ (fun z => keyEq z x) w t hw] at hz
        rw [Bool.not_eq_true, keyEq_false_iff] at hw
        rcases List.mem_cons.mp hz with hEq | hMem
        · subst hEq
          have hle := hb z (List.mem_cons_self _ _)
          unfold keyLe keyLt at *
          omega
        · have hlew := hb w (List.mem_cons_self _ _)
          have hwz := hp.1 z hMem
          unfold keyLe keyLt at *
          omega

theorem crossDedup_advance_x (x y : compressed_block) (xs' ys' : List compressed_block)
    (hlt : keyLt x y) (hy1 : ∀ z ∈ ys', keyLe y z)
    (hrec : crossDedup xs' (y :: ys')
      = (xs'.filter fun a => !((y :: ys').any (keyEq a)),
         (y :: ys').filter fun a => !(xs'.any (keyEq a)))) :
    (x :: (crossDedup xs' (y :: ys')).1, (crossDedup xs' (y :: ys')).2)
      = ((x :: xs').filter fun a => !((y :: ys').any (keyEq a)),
         (y :: ys').filter fun a => !((x :: xs').any (keyEq a))) := by
  have hxz : ∀ z ∈ y :: ys', keyLt x z := by
    intro z hz
    rcases List.mem_cons.mp hz with hEq | hMem
    · subst hEq
      exact hlt
    · exact keyLt_keyLe_trans hlt (hy1 z hMem)
  have hxany : (y :: ys').any (keyEq x) = false := by
    rw [List.any_eq_false]
    intro z hz
    have hzlt := hxz z hz
    intro hEq
    rw [keyEq_true_iff] at hEq
    unfold keyLt at hzlt
    omega
  rw [hrec]
  simp only [Prod.mk.injEq]
  constructor
  · rw [List.filter_cons_of_pos (by simp [hxany])]
  · apply List.filter_congr
    intro z hz
    have hzx : keyEq z x = false := by
      have hzlt := hxz z hz
      rw [keyEq_false_iff]
      unfold keyLt at hzlt
      omega
    simp [List.any_cons, hzx]

theorem crossDedup_advance_y (x y : compressed_block) (xs' ys' : List compressed_block)
    (hlt : keyLt y x) (hx1 : ∀ z ∈ xs', keyLe x z)
    (hrec : crossDedup (x :: xs') ys'
      = ((x :: xs').filter fun a => !(ys'.any (keyEq a)),
         ys'.filter fun a => !((x :: xs').any (keyEq a)))) :
    ((crossDedup (x :: xs') ys').1, y :: (crossDedup (x :: xs') ys').2)
      = ((x :: xs').filter fun a => !((y :: ys').any (keyEq a)),
         (y :: ys').filter fun a => !((x :: xs').any (keyEq a))) := by
  have hyz : ∀ z ∈ x :: xs', keyLt y z := by
    intro z hz
    rcases List.mem_cons.mp hz with hEq | hMem
    · subst hEq
      exact hlt
    · exact keyLt_keyLe_trans hlt (hx1 z hMem)
  have hyany : (x :: xs').any (keyEq y) = false := by
    rw [List.any_eq_false]
    intro z hz
    have hzlt := hyz z hz
    intro hEq
    rw [keyEq_true_iff] at hEq
    unfold keyLt at hzlt
    omega
  rw [hrec]
  simp only [Prod.mk.injEq]
  constructor
  · apply List.filter_congr
    intro z hz
    have hzy : keyEq z y = false := by
      have hzlt := hyz z hz
      rw [keyEq_false_iff]
      unfold keyLt at hzlt
      omega
    simp [List.any_cons, hzy]
  · rw [List.filter_cons_of_pos (by simp [hyany])]

theorem crossDedup_characterization : ∀ (N : Nat) (xs ys : List compressed_block),
    xs.length + ys.length ≤ N →
    List.Pairwise keyLe xs → List.Pairwise keyLe ys →
    crossDedup xs ys
      = (xs.filter fun a => !(ys.any (keyEq a)), ys.filter fun a => !(xs.any (keyEq a))) := by
  intro N
  induction N with
  | zero =>
      intro xs ys hN hx hy
      cases xs with
      | nil => simp [crossDedup]
      | cons x xs' => simp at hN
  | succ n ihN =>
      intro xs ys hN hx hy
      cases xs with
      | nil => simp [crossDedup]
      | cons x xs' =>
        cases ys with
        | nil => simp [crossDedup]
        | cons y ys' =>
          rw [List.pairwise_cons] at hx hy
          obtain ⟨hx1, hx2⟩ := hx
          obtain ⟨hy1, hy2⟩ := hy
          have hNx : xs'.length + (y :: ys').length ≤ n := by
            simp at hN ⊢
            omega
          have hNy : (x :: xs').length + ys'.length ≤ n := by
            simp at hN ⊢
            omega
          simp only [crossDedup]
          by_cases c1 : x.length < y.length
          · rw [if_pos c1]
            exact crossDedup_advance_x x y xs' ys' (Or.inl c1) hy1
              (ihN xs' (y :: ys') hNx hx2 (List.pairwise_cons.mpr ⟨hy1, hy2⟩))
          · rw [if_neg c1]
            by_cases c2 : y.length < x.length
            · rw [if_pos c2]
              exact crossDedup_advance_y x y xs' ys' (Or.inl c2) hx1
                (ihN (x :: xs') ys' hNy (List.pairwise_cons.mpr ⟨hx1, hx2⟩) hy2)
            · rw [if_neg c2]
              by_cases c3 : x.hash < y.hash
              · rw [if_pos c3]
                exact crossDedup_advance_x x y xs' ys' (Or.inr ⟨by omega, c3⟩) hy1
                  (ihN xs' (y :: ys') hNx hx2 (List.pairwise_cons.mpr ⟨hy1, hy2⟩))
              · rw [if_neg c3]
                by_cases c4 : y.hash < x.hash
                · rw [if_pos c4]
                  exact crossDedup_advance_y x y xs' ys' (Or.inr ⟨by omega, c4⟩) hx1
                    (ihN (x :: xs') ys' hNy (List.pairwise_cons.mpr ⟨hx1, hx2⟩) hy2)
                · rw [if_neg c4]
                  have hlen : x.length = y.length := by omega
                  have hhash : x.hash = y.hash := by omega
                  have hrunx : ∀ z ∈ xs'.dropWhile fun z => keyEq z x, keyLt x z :=
                    dropWhile_run_keyLt x xs' hx1 hx2
                  have hruny : ∀ z ∈ ys'.dropWhile fun z => keyEq z y, keyLt y z :=
                    dropWhile_run_keyLt y ys' hy1 hy2
                  have hlx : (xs'.dropWhile fun z => keyEq z x).length ≤ xs'.length :=
                    (List.dropWhile_sublist _).length_le
                  have hly : (ys'.dropWhile fun z => keyEq z y).length ≤ ys'.length :=
                    (List.dropWhile_sublist _).length_le
                  have hrec := ihN (xs'.dropWhile fun z => keyEq z x)
                    (ys'.dropWhile fun z => keyEq z y)
                    (by simp at hN; omega)
                    (List.Pairwise.sublist (List.dropWhile_sublist _) hx2)
                    (List.Pairwise.sublist (List.dropWhile_sublist _) hy2)
                  rw [hrec]
                  simp only [Prod.mk.injEq]
                  constructor
                  · -- first components
                    have hsplit : (x :: xs')
                        = ((x :: xs').takeWhile fun z => keyEq z x)
                          ++ (xs'.dropWhile fun z => keyEq z x) := by
                      conv_lhs =>
                        rw [← List.takeWhile_append_dropWhile (fun z => keyEq z x) (x :: xs')]
                      rw [@List.dropWhile_cons_of_pos _ (fun z => keyEq z x) x xs' (keyEq_refl x)]
                    conv_rhs => rw [hsplit]
                    rw [List.filter_append]
                    have htake : (((x :: xs').takeWhile fun z => keyEq z x).filter
                        fun a => !((y :: ys').any (keyEq a))) = [] := by
                      rw [List.filter_eq_nil_iff]
                      intro w hw
                      have hwEq := List.mem_takeWhile_imp hw
                      rw [keyEq_true_iff] at hwEq
                      have hwy : keyEq w y = true := by
                        rw [keyEq_true_iff]
                        constructor <;> omega
                      simp only [Bool.not_eq_true', Bool.not_eq_false]
                      rw [List.any_eq_true]
                      exact ⟨y, List.mem_cons_self y ys', hwy⟩
                    rw [htake, List.nil_append]
                    symm
                    apply List.filter_congr
                    intro z hz
                    have hxlt := hrunx z hz
                    have hylt : keyLt y z := by
                      unfold keyLt at hxlt ⊢
                      omega
                    have hzy : keyEq z y = false := by
                      rw [keyEq_false_iff]
                      unfold keyLt at hylt
                      omega
                    rw [List.any_cons, hzy, Bool.false_or]
                    conv_lhs =>
                      rw [← List.takeWhile_append_dropWhile (fun w => keyEq w y) ys']
                    rw [List.any_append]
                    have htk : ((ys'.takeWhile fun w => keyEq w y).any (keyEq z)) = false := by
                      rw [List.any_eq_false]
                      intro w hw
                      have hwEq := List.mem_takeWhile_imp hw
                      rw [keyEq_true_iff] at hwEq
                      intro hzw
                      rw [keyEq_true_iff] at hzw
                      unfold keyLt at hylt
                      omega
                    rw [htk, Bool.false_or]
                  · -- second components
                    have hsplit : (y :: ys')
                        = ((y :: ys').takeWhile fun z => keyEq z y)
                          ++ (ys'.dropWhile fun z => keyEq z y) := by
                      conv_lhs =>
                        rw [← List.takeWhile_append_dropWhile (fun z => keyEq z y) (y :: ys')]
                      rw [@List.dropWhile_cons_of_pos _ (fun z => keyEq z y) y ys' (keyEq_refl y)]
                    conv_rhs => rw [hsplit]
                    rw [List.filter_append]
                    have htake : (((y :: ys').takeWhile fun z => keyEq z y).filter
                        fun a => !((x :: xs').any (keyEq a))) = [] := by
                      rw [List.filter_eq_nil_iff]
                      intro w hw
                      have hwEq := List.mem_takeWhile_imp hw
                      rw [keyEq_true_iff] at hwEq
                      have hwx : keyEq w x = true := by
                        rw [keyEq_true_iff]
                        constructor <;> omega
                      simp only [Bool.not_eq_true', Bool.not_eq_false]
                      rw [List.any_eq_true]
                      exact ⟨x, List.mem_cons_self x xs', hwx⟩
                    rw [htake, List.nil_append]
                    symm
                    apply List.filter_congr
                    intro z hz
                    have hylt := hruny z hz
                    have hxlt : keyLt x z := by
                      unfold keyLt at hylt ⊢
                      omega
                    have hzx : keyEq z x = false := by
                      rw [keyEq_false_iff]
                      unfold keyLt at hxlt
                      omega
                    rw [List.any_cons, hzx, Bool.false_or]
                    conv_lhs =>
                      rw [← List.takeWhile_append_dropWhile (fun w => keyEq w x) xs']
                    rw [List.any_append]
                    have htk : ((xs'.takeWhile fun w => keyEq w x).any (keyEq z)) = false := by
                      rw [List.any_eq_false]
                      intro w hw
                      have hwEq := List.mem_takeWhile_imp hw
                      rw [keyEq_true_iff] at hwEq
                      intro hzw
                      rw [keyEq_true_iff] at hzw
                      unfold keyLt at hxlt
                      omega
                    rw [htk, Bool.false_or]

/-- C3: over two `(length, hash)`-sorted lists, the cross-image dedup
loop removes from each list exactly the entries whose key occurs in the
other list (whole runs of equal keys included, regardless of offsets):
each output is the corresponding input filtered to the entries with no
key match in the other input, no key is shared between the two outputs,
and swapping the two lists swaps the two outputs, so the removed set is
the same. -/
theorem crossDedup_spec (xs ys : List compressed_block)
    (hx : List.Pairwise keyLe xs) (hy : List.Pairwise keyLe ys) :
    (crossDedup xs ys).1 = xs.filter (fun a => !(ys.any (keyEq a))) ∧
    (crossDedup xs ys).2 = ys.filter (fun a => !(xs.any (keyEq a))) ∧
    (crossDedup ys xs).1 = (crossDedup xs ys).2 ∧
    (crossDedup ys xs).2 = (crossDedup xs ys).1 ∧
    ∀ a ∈ (crossDedup xs ys).1, ∀ b ∈ (crossDedup xs ys).2, keyEq a b = false := by
  have h1 := crossDedup_characterization (xs.length + ys.length) xs ys (Nat.le_refl _) hx hy
  have h2 := crossDedup_characterization (ys.length + xs.length) ys xs (Nat.le_refl _) hy hx
  refine ⟨by rw [h1], by rw [h1], by rw [h1, h2], by rw [h1, h2], ?_⟩
  intro a ha b hb
  rw [h1] at ha hb
  rw [List.mem_filter] at ha hb
  have hano : ys.any (keyEq a) = false := by
    have := ha.2
    simp only [Bool.not_eq_true'] at this
    exact this
  rw [List.any_eq_false] at hano
  have hbmem : b ∈ ys := hb.1
  by_contra hne
  have htrue : keyEq a b = true := by
    cases hkb : keyEq a b
    · exact absurd hkb hne
    · rfl
  exact (hano b hbmem) htrue

/-- Witness for C3: a concrete pair of sorted lists with one shared
key. -/
theorem crossDedup_spec_exec :
    (crossDedup [⟨0, 1, 0, 5⟩] [⟨9, 1, 0, 5⟩, ⟨4, 2, 0, 3⟩]).1
      = [⟨0, 1, 0, 5⟩].filter (fun a => !([⟨9, 1, 0, 5⟩, ⟨4, 2, 0, 3⟩].any (keyEq a))) :=
  (crossDedup_spec [⟨0, 1, 0, 5⟩] [⟨9, 1, 0, 5⟩, ⟨4, 2, 0, 3⟩] (by decide) (by decide)).1

end SquashDelta
